import Mathlib

/-!
Shallow embedding of the task-switching core in `src/kernel/src/task.rs`.

Modelling conventions:
- `TrapFrame` and `MemoryExhausted` live in `crate::interrupt` / `crate::mem`,
  which are outside the given sources; they are modelled from the spec as an
  opaque copyable register snapshot and a unit error value.
- The `Arc<Mutex<TaskState>>` cell shared between a `Task`, the registry map
  entry and any `Step` handle is modelled by keying all accesses by `TaskId`:
  the registry map entry holds the authoritative state, and every writer and
  reader goes through the entry with that id.
- `alloc_collections::btree_map::BTreeMap` is an external collaborator; it is
  modelled as an association list sorted by id, with `range(k..)` and
  `range(..=k)` as order-preserving filters and all-or-nothing `insert`.
- The unbounded `loop` in `switch` is given explicit fuel; running out of fuel
  is reported separately from the `panic!` paths.
- Panics (`expect`, explicit `panic!`) are modelled as `Option.none` or the
  `fatal` outcome.
- The only continuations in the repository are the two echo loops created in
  `start` (`loop { frame = task.step(frame).await }`); polling a task future
  is modelled as one poll of that desugared state machine.
-/

namespace CrabOS

/-- Modelled from the spec: `crate::interrupt::TrapFrame` is not under `src/`;
the spec describes it as an opaque, copyable snapshot of CPU register state
constructed from an entry point and a stack pointer (`TrapFrame::new`). -/
structure TrapFrame where
  rip : Nat
  rsp : Nat
deriving DecidableEq, Repr

/-- Embeds `TrapFrame::new(rip, rsp)`. -/
def TrapFrame.new (rip rsp : Nat) : TrapFrame := ⟨rip, rsp⟩

/-- Modelled from the spec: `crate::mem::MemoryExhausted` is not under `src/`;
it is the explicit allocation-failure error, carrying no data. -/
inductive MemoryExhausted where
  | mk
deriving DecidableEq, Repr

/-- Embeds `core::task::Poll`. -/
inductive Poll (α : Type) where
  | ready (a : α)
  | pending
deriving DecidableEq, Repr

/-- Embeds `TaskState` (task.rs lines 33-39). -/
inductive TaskState where
  | entry (frame : TrapFrame)
  | wake
  | sleep
  | user (frame : TrapFrame)
deriving DecidableEq, Repr

/-- Progress of an echo continuation `loop { frame = task.step(frame).await }`
(the async blocks built in `start`, task.rs lines 89-103): either not yet
polled for the first time (holding the initial frame passed to
`TrapFrame::new`), or suspended at the `.await` of a `Step`. -/
inductive FutState where
  | notStarted (init : TrapFrame)
  | awaitingStep
deriving DecidableEq, Repr

/-- One registry map entry: a `Task` (task.rs lines 43-48) together with its
key. The `page_ctx` field is opaque and irrelevant to scheduling, so it is not
modelled; the shared `Arc<Mutex<TaskState>>` cell and the shared future are
identified by the task's id. -/
structure TaskEntry where
  id : Nat
  state : TaskState
  fut : FutState
deriving DecidableEq, Repr

/-- Embeds `Tasks` (task.rs lines 27-31): the map is kept as a list sorted by `id`. -/
structure Tasks where
  map : List TaskEntry
  current : Option Nat
  nextId : Nat
deriving DecidableEq, Repr

/-- Embeds `TaskHandle::step` (task.rs lines 262-270): overwrite the shared state
cell with `User(frame)`; the returned `Step` handle is the cell itself. -/
def TaskHandle.step (frame : TrapFrame) (_st : TaskState) : TaskState :=
  TaskState.user frame

/-- Embeds `Step::poll` (task.rs lines 277-288), as a transformer of the shared state
cell: the match only reads the cell, so the cell is returned unchanged;
`Sleep` panics (`none`). -/
def Step.poll : TaskState → Option (Poll TrapFrame × TaskState)
  | TaskState.entry f => some (Poll.ready f, TaskState.entry f)
  | TaskState.wake => some (Poll.pending, TaskState.wake)
  | TaskState.user f => some (Poll.pending, TaskState.user f)
  | TaskState.sleep => none

/-- Body of one resumption of the echo loop: call `task.step(resume)`, then
keep driving the awaits while they come back ready (a fresh `step` leaves the
cell at `User`, whose poll is `Pending`, so the recursion ends at once; the
fuel only justifies termination). Result: new suspension point, new state
cell, and whether the future completed (`true` would be `Poll::Ready(())`). -/
def pollEchoCore : Nat → TrapFrame → TaskState → Option (FutState × TaskState × Bool)
  | 0, _, _ => none
  | fuel+1, resume, st =>
    match Step.poll (TaskHandle.step resume st) with
    | none => none
    | some (Poll.pending, st2) => some (FutState.awaitingStep, st2, false)
    | some (Poll.ready f, st2) => pollEchoCore fuel f st2

/-- One poll of an echo continuation against the shared state cell. -/
def pollEcho : FutState → TaskState → Option (FutState × TaskState × Bool)
  | FutState.notStarted init, st => pollEchoCore 2 init st
  | FutState.awaitingStep, st =>
    match Step.poll st with
    | none => none
    | some (Poll.pending, st2) => some (FutState.awaitingStep, st2, false)
    | some (Poll.ready f, st2) => pollEchoCore 2 f st2

/-- Embeds `WorkItem` (task.rs lines 147-150); the kernel variant's cloned future
`Arc` is identified by the task id it belongs to. -/
inductive WorkItem where
  | kernel (id : Nat)
  | user (frame : TrapFrame)
deriving DecidableEq, Repr

/-- The candidate iterator of `find_next_work_item` (task.rs lines 159-161):
`map.range(previous_task_id..).skip(1).chain(map.range(..=previous_task_id))`
over the sorted map. -/
def candidates (m : List TaskEntry) (prev : Nat) : List TaskEntry :=
  (m.filter (fun e => prev ≤ e.id)).drop 1 ++ m.filter (fun e => e.id ≤ prev)

/-- The scan loop of `find_next_work_item` (task.rs lines 163-182): skip
`Sleep`, select the first other candidate, setting `tasks.current`. -/
def scanCandidates (ts : Tasks) : List TaskEntry → Option (Nat × WorkItem × Tasks)
  | [] => none
  | e :: rest =>
    match e.state with
    | TaskState.sleep => scanCandidates ts rest
    | TaskState.entry _ =>
        some (e.id, WorkItem.kernel e.id, { ts with current := some e.id })
    | TaskState.wake =>
        some (e.id, WorkItem.kernel e.id, { ts with current := some e.id })
    | TaskState.user f =>
        some (e.id, WorkItem.user f, { ts with current := some e.id })

/-- Embeds `find_next_work_item` (task.rs lines 152-185); `none` models the
final panic (no task ready to run). -/
def find_next_work_item (ts : Tasks) (prev : Nat) : Option (Nat × WorkItem × Tasks) :=
  scanCandidates ts (candidates ts.map prev)

/-- The id selected by one `find_next_work_item` call, if any. -/
def selectedId (ts : Tasks) (prev : Nat) : Option Nat :=
  (find_next_work_item ts prev).map (fun r => r.1)

/-- The per-entry effect of the save phase (task.rs lines 129-140): the entry
of the current task has its frame overwritten iff its state is `User(_)`. -/
def saveEntry (frame : TrapFrame) (cid : Nat) (e : TaskEntry) : TaskEntry :=
  if e.id = cid then
    match e.state with
    | TaskState.user _ => { e with state := TaskState.user frame }
    | _ => e
  else e

/-- Embeds `save_current_task` (task.rs lines 121-145): returns `previous_task_id`
(sentinel 0 when there is no current task) and the registry after the save. -/
def save_current_task (frame : TrapFrame) (ts : Tasks) : Nat × Tasks :=
  match ts.current with
  | some cid => (cid, { ts with map := ts.map.map (saveEntry frame cid) })
  | none => (0, ts)

/-- Outcome of `switch`: normal return with the frame written to the caller's
buffer, a panic, or fuel exhaustion of the modelled unbounded loop. The log
lists the ids whose continuations were polled, in order. -/
inductive SwitchResult where
  | ok (frame : TrapFrame) (ts : Tasks) (log : List Nat)
  | fatal (ts : Tasks) (log : List Nat)
  | outOfFuel (ts : Tasks) (log : List Nat)
deriving DecidableEq, Repr

/-- Look up a map entry by id (the shared `Arc` for that task). -/
def lookupEntry (m : List TaskEntry) (id : Nat) : Option TaskEntry :=
  m.find? (fun e => id = e.id)

/-- Write back the shared future and state cells of the task with this id. -/
def updateEntry (m : List TaskEntry) (id : Nat) (fs : FutState) (st : TaskState) :
    List TaskEntry :=
  m.map (fun e => if e.id = id then { e with fut := fs, state := st } else e)

/-- The select-and-drive loop of `switch` (task.rs lines 189-208): kernel work
polls the selected task's future with the no-op waker and loops with
`previous_task_id` advanced; user work writes the frame out and returns. -/
def switchLoop : Nat → Tasks → Nat → List Nat → SwitchResult
  | 0, ts, _, log => SwitchResult.outOfFuel ts log
  | fuel+1, ts, prev, log =>
    match find_next_work_item ts prev with
    | none => SwitchResult.fatal ts log
    | some (_, WorkItem.user f, ts2) => SwitchResult.ok f ts2 log
    | some (newId, WorkItem.kernel id, ts2) =>
      match lookupEntry ts2.map id with
      | none => SwitchResult.fatal ts2 log
      | some e =>
        match pollEcho e.fut e.state with
        | none => SwitchResult.fatal ts2 (log ++ [id])
        | some (fs2, st2, ready) =>
          if ready then SwitchResult.fatal ts2 (log ++ [id])
          else
            switchLoop fuel { ts2 with map := updateEntry ts2.map id fs2 st2 }
              newId (log ++ [id])

/-- Embeds `switch` (task.rs lines 120-209): save phase, then the select-and-drive
loop. -/
def «switch» (fuel : Nat) (frame : TrapFrame) (ts : Tasks) : SwitchResult :=
  let saved := save_current_task frame ts
  switchLoop fuel saved.2 saved.1 []

/-- Overwrite the state cell of the task with this id (the `mem::replace` in
`dispatch_syscall` writes through the current task's shared `Arc`). -/
def setState (ts : Tasks) (cid : Nat) (st : TaskState) : Tasks :=
  { ts with map := ts.map.map (fun e => if e.id = cid then { e with state := st } else e) }

/-- Embeds `dispatch_syscall` (task.rs lines 211-235): panic if there is no current
task; replace the current task's state with `Entry(frame)`; panic unless the
previous state was `User(_)`; otherwise delegate to `switch`. The `current`
reference always aliases a map entry, so an id miss is also modelled fatal. -/
def dispatch_syscall (fuel : Nat) (frame : TrapFrame) (ts : Tasks) : SwitchResult :=
  match ts.current with
  | none => SwitchResult.fatal ts []
  | some cid =>
    match lookupEntry ts.map cid with
    | none => SwitchResult.fatal ts []
    | some e =>
      let ts2 := setState ts cid (TaskState.entry frame)
      match e.state with
      | TaskState.user _ => «switch» fuel frame ts2
      | _ => SwitchResult.fatal ts2 []

/-- Embeds `waker_clone` (task.rs lines 244-246): unconditional panic. -/
def waker_clone : Option Unit := none

/-- Embeds `waker_wake` (task.rs lines 248-250): unconditional panic. -/
def waker_wake : Option Unit := none

/-- Embeds `waker_wake_by_ref` (task.rs lines 252-254): unconditional panic. -/
def waker_wake_by_ref : Option Unit := none

/-- Embeds `waker_drop` (task.rs line 256): no-op. -/
def waker_drop : Option Unit := some ()

/-- Success/failure of each allocation step inside `Tasks::create`, in source
order (the ordered-map `insert` is all-or-nothing per its interface). -/
structure AllocPlan where
  stateCell : Bool
  futureBox : Bool
  futureArc : Bool
  taskArc : Bool
  insertOk : Bool
deriving DecidableEq, Repr

/-- Ordered insert with replacement on an equal key (`BTreeMap::insert`). -/
def insertSorted (e : TaskEntry) : List TaskEntry → List TaskEntry
  | [] => [e]
  | a :: rest =>
    if e.id < a.id then e :: a :: rest
    else if e.id = a.id then e :: rest
    else a :: insertSorted e rest

/-- Embeds `Tasks::create` (task.rs lines 51-79): take the id and bump `next_id`
first, then perform the fallible allocation steps in source order, and insert
last. `init` is the initial frame of the echo continuation the factory
builds. Returns the new `TaskRef` by its id. -/
def Tasks.create (p : AllocPlan) (init : TrapFrame) (ts : Tasks) :
    Tasks × Except MemoryExhausted Nat :=
  let id := ts.nextId
  let ts1 := { ts with nextId := ts.nextId + 1 }
  if p.stateCell = false then (ts1, Except.error MemoryExhausted.mk)
  else if p.futureBox = false then (ts1, Except.error MemoryExhausted.mk)
  else if p.futureArc = false then (ts1, Except.error MemoryExhausted.mk)
  else if p.taskArc = false then (ts1, Except.error MemoryExhausted.mk)
  else if p.insertOk = false then (ts1, Except.error MemoryExhausted.mk)
  else
    ({ ts1 with
       map := insertSorted ⟨id, TaskState.wake, FutState.notStarted init⟩ ts1.map },
     Except.ok id)

/-- The registry as `start` (task.rs lines 82-87) builds it, before any task
is registered: empty map, no current task, `next_id = 1`. -/
def bootTasks : Tasks := ⟨[], none, 1⟩

/-- A sequence of `create` calls; returns the final registry and the ids of
the successful registrations, in call order. -/
def runCreates : List (AllocPlan × TrapFrame) → Tasks → Tasks × List Nat
  | [], ts => (ts, [])
  | (p, fr) :: rest, ts =>
    let step := Tasks.create p fr ts
    let restRun := runCreates rest step.1
    match step.2 with
    | Except.ok id => (restRun.1, id :: restRun.2)
    | Except.error _ => (restRun.1, restRun.2)

/-! ## Helper lemmas -/

theorem create_nextId (p : AllocPlan) (init : TrapFrame) (ts : Tasks) :
    (Tasks.create p init ts).1.nextId = ts.nextId + 1 := by
  unfold Tasks.create
  split_ifs <;> rfl

theorem create_ok_id (p : AllocPlan) (init : TrapFrame) (ts : Tasks) (id : Nat)
    (h : (Tasks.create p init ts).2 = Except.ok id) : id = ts.nextId := by
  unfold Tasks.create at h
  split_ifs at h
  all_goals simp_all

theorem runCreates_chain (l : List (AllocPlan × TrapFrame)) :
    ∀ ts : Tasks, List.Chain' (· < ·) (runCreates l ts).2 ∧
      ∀ x ∈ (runCreates l ts).2, ts.nextId ≤ x := by
  induction l with
  | nil => intro ts; simp [runCreates]
  | cons hd tl ih =>
    intro ts
    obtain ⟨p, fr⟩ := hd
    have hnext := create_nextId p fr ts
    have ihts := ih (Tasks.create p fr ts).1
    obtain ⟨ihchain, ihge⟩ := ihts
    rw [hnext] at ihge
    unfold runCreates
    cases hr : (Tasks.create p fr ts).2 with
    | error e =>
      simp only [hr]
      refine ⟨ihchain, fun x hx => ?_⟩
      exact le_trans (Nat.le_succ _) (ihge x hx)
    | ok id =>
      have hid : id = ts.nextId := create_ok_id p fr ts id hr
      simp only [hr]
      constructor
      · rw [List.chain'_cons']
        refine ⟨fun b hb => ?_, ihchain⟩
        have hbmem : b ∈ (runCreates tl (Tasks.create p fr ts).1).2 :=
          List.mem_of_mem_head? hb
        have := ihge b hbmem
        omega
      · intro x hx
        rcases List.mem_cons.1 hx with h | h
        · omega
        · have := ihge x h; omega

theorem mem_candidates {m : List TaskEntry} {prev : Nat} {e : TaskEntry}
    (h : e ∈ candidates m prev) : e ∈ m := by
  unfold candidates at h
  rcases List.mem_append.1 h with h | h
  · exact List.mem_of_mem_filter (List.mem_of_mem_drop h)
  · exact List.mem_of_mem_filter h

theorem scanCandidates_spec :
    ∀ (cl : List TaskEntry) (ts : Tasks) (id : Nat) (w : WorkItem) (ts2 : Tasks),
      scanCandidates ts cl = some (id, w, ts2) →
      ts2 = { ts with current := some id } ∧
      ∃ e, e ∈ cl ∧ e.id = id ∧ e.state ≠ TaskState.sleep ∧
        (∀ f, w = WorkItem.user f → e.state = TaskState.user f) ∧
        (∀ k, w = WorkItem.kernel k → k = id ∧
          (e.state = TaskState.wake ∨ ∃ g, e.state = TaskState.entry g)) := by
  intro cl
  induction cl with
  | nil => intro ts id w ts2 h; simp [scanCandidates] at h
  | cons e rest ih =>
    intro ts id w ts2 h
    unfold scanCandidates at h
    cases hst : e.state with
    | sleep =>
      rw [hst] at h
      obtain ⟨hts2, e2, hmem, rest_spec⟩ := ih ts id w ts2 h
      exact ⟨hts2, e2, List.mem_cons_of_mem _ hmem, rest_spec⟩
    | entry g =>
      rw [hst] at h
      simp only [Option.some.injEq, Prod.mk.injEq] at h
      obtain ⟨hid, hw, hts2⟩ := h
      refine ⟨by rw [← hts2, hid], e, List.mem_cons_self _ _, hid, by simp [hst], ?_, ?_⟩
      · intro f hf; rw [hf] at hw; simp at hw
      · intro k hk
        rw [hk] at hw
        injection hw with hw2
        exact ⟨hw2 ▸ hid, Or.inr ⟨g, hst⟩⟩
    | wake =>
      rw [hst] at h
      simp only [Option.some.injEq, Prod.mk.injEq] at h
      obtain ⟨hid, hw, hts2⟩ := h
      refine ⟨by rw [← hts2, hid], e, List.mem_cons_self _ _, hid, by simp [hst], ?_, ?_⟩
      · intro f hf; rw [hf] at hw; simp at hw
      · intro k hk
        rw [hk] at hw
        injection hw with hw2
        exact ⟨hw2 ▸ hid, Or.inl hst⟩
    | user f =>
      rw [hst] at h
      simp only [Option.some.injEq, Prod.mk.injEq] at h
      obtain ⟨hid, hw, hts2⟩ := h
      refine ⟨by rw [← hts2, hid], e, List.mem_cons_self _ _, hid, by simp [hst], ?_, ?_⟩
      · intro f2 hf2
        rw [hf2] at hw
        injection hw with hw2
        rw [hst, hw2]
      · intro k hk; rw [hk] at hw; simp at hw

theorem map_eq_self_of_eq_id {l : List TaskEntry} {g : TaskEntry → TaskEntry}
    (h : ∀ e ∈ l, g e = e) : l.map g = l := by
  induction l with
  | nil => rfl
  | cons a t ih =>
    simp only [List.map_cons, h a (List.mem_cons_self a t),
      ih fun e he => h e (List.mem_cons_of_mem a he)]

theorem saveEntry_user (frame : TrapFrame) (cid : Nat) (e : TaskEntry) (g : TrapFrame)
    (h1 : e.id = cid) (h2 : e.state = TaskState.user g) :
    saveEntry frame cid e = { e with state := TaskState.user frame } := by
  unfold saveEntry
  rw [if_pos h1, h2]

theorem saveEntry_not_user (frame : TrapFrame) (cid : Nat) (e : TaskEntry)
    (h : ∀ g, e.state ≠ TaskState.user g) : saveEntry frame cid e = e := by
  unfold saveEntry
  split_ifs with hid
  · cases hst : e.state with
    | user g => exact absurd hst (h g)
    | entry g => rfl
    | wake => rfl
    | sleep => rfl
  · rfl

theorem saveEntry_other (frame : TrapFrame) (cid : Nat) (e : TaskEntry)
    (h : e.id ≠ cid) : saveEntry frame cid e = e := by
  unfold saveEntry
  rw [if_neg h]

theorem saveEntry_id (frame : TrapFrame) (cid : Nat) (e : TaskEntry) :
    (saveEntry frame cid e).id = e.id := by
  unfold saveEntry
  split_ifs
  · cases e.state <;> rfl
  · rfl

theorem updateEntry_keeps_others {m : List TaskEntry} {id : Nat} {fs : FutState}
    {st : TaskState} {tid : Nat}
    (hH : ∀ e ∈ m, e.id = tid → e.state = TaskState.sleep) (hne : id ≠ tid) :
    ∀ e ∈ updateEntry m id fs st, e.id = tid → e.state = TaskState.sleep := by
  intro e he hid
  unfold updateEntry at he
  obtain ⟨a, ha, hae⟩ := List.mem_map.1 he
  split_ifs at hae with h2
  · exfalso
    rw [← hae] at hid
    have hid2 : a.id = tid := hid
    exact hne (h2.symm.trans hid2)
  · rw [← hae] at hid ⊢
    exact hH a ha hid

theorem switchLoop_sleep_invariant (tid : Nat) :
    ∀ (fuel : Nat) (ts : Tasks) (prev : Nat) (log : List Nat),
      (∀ e ∈ ts.map, e.id = tid → e.state = TaskState.sleep) →
      tid ∉ log →
      (match switchLoop fuel ts prev log with
       | SwitchResult.ok _ ts2 log2 =>
           (∀ e ∈ ts2.map, e.id = tid → e.state = TaskState.sleep) ∧
           ts2.current ≠ some tid ∧ tid ∉ log2
       | SwitchResult.fatal ts2 log2 =>
           (∀ e ∈ ts2.map, e.id = tid → e.state = TaskState.sleep) ∧ tid ∉ log2
       | SwitchResult.outOfFuel ts2 log2 =>
           (∀ e ∈ ts2.map, e.id = tid → e.state = TaskState.sleep) ∧ tid ∉ log2) := by
  intro fuel
  induction fuel with
  | zero =>
    intro ts prev log hH hlog
    exact ⟨hH, hlog⟩
  | succ fuel ih =>
    intro ts prev log hH hlog
    cases hfind : find_next_work_item ts prev with
    | none =>
      have hstep : switchLoop (fuel + 1) ts prev log = SwitchResult.fatal ts log := by
        simp only [switchLoop, hfind]
      rw [hstep]
      exact ⟨hH, hlog⟩
    | some r =>
      obtain ⟨newId, w, ts2⟩ := r
      obtain ⟨hts2, e, hmem, hid, hns, huser, hker⟩ :=
        scanCandidates_spec _ ts newId w ts2 hfind
      have hsel_ne : newId ≠ tid := by
        intro hEq
        exact hns (hH e (mem_candidates hmem) (hid.trans hEq))
      have hH2 : ∀ e2 ∈ ts2.map, e2.id = tid → e2.state = TaskState.sleep := by
        rw [hts2]; exact hH
      have hlog2 : tid ∉ log ++ [newId] := by
        intro hm
        rcases List.mem_append.1 hm with hm | hm
        · exact hlog hm
        · exact hsel_ne (List.mem_singleton.1 hm).symm
      cases w with
      | user f =>
        have hstep : switchLoop (fuel + 1) ts prev log = SwitchResult.ok f ts2 log := by
          simp only [switchLoop, hfind]
        rw [hstep]
        refine ⟨hH2, ?_, hlog⟩
        rw [hts2]
        intro hc
        exact hsel_ne (Option.some.inj hc)
      | kernel k =>
        obtain ⟨hk_eq, _⟩ := hker k rfl
        subst hk_eq
        cases hlook : lookupEntry ts2.map k with
        | none =>
          have hstep : switchLoop (fuel + 1) ts prev log = SwitchResult.fatal ts2 log := by
            simp only [switchLoop, hfind, hlook]
          rw [hstep]
          exact ⟨hH2, hlog⟩
        | some e2 =>
          cases hpoll : pollEcho e2.fut e2.state with
          | none =>
            have hstep : switchLoop (fuel + 1) ts prev log =
                SwitchResult.fatal ts2 (log ++ [k]) := by
              simp only [switchLoop, hfind, hlook, hpoll]
            rw [hstep]
            exact ⟨hH2, hlog2⟩
          | some trip =>
            obtain ⟨fs2, st2, ready⟩ := trip
            cases ready with
            | true =>
              have hstep : switchLoop (fuel + 1) ts prev log =
                  SwitchResult.fatal ts2 (log ++ [k]) := by
                simp only [switchLoop, hfind, hlook, hpoll, if_true]
              rw [hstep]
              exact ⟨hH2, hlog2⟩
            | false =>
              have hstep : switchLoop (fuel + 1) ts prev log =
                  switchLoop fuel { ts2 with map := updateEntry ts2.map k fs2 st2 } k
                    (log ++ [k]) := by
                simp only [switchLoop, hfind, hlook, hpoll, Bool.false_eq_true, if_false]
              rw [hstep]
              exact ih { ts2 with map := updateEntry ts2.map k fs2 st2 } k
                (log ++ [k]) (updateEntry_keeps_others hH2 hsel_ne) hlog2

/-! ## Claim theorems -/

/-- C5: each `Step::poll` observes the shared state cell as follows:
`Entry(frame)` yields `Ready` with a copy of the frame, `Wake` and `User(_)`
yield `Pending`, and `Sleep` is a fatal abort. -/
theorem c5_step_poll_cases :
    (∀ f, Step.poll (TaskState.entry f) = some (Poll.ready f, TaskState.entry f)) ∧
    Step.poll TaskState.wake = some (Poll.pending, TaskState.wake) ∧
    (∀ f, Step.poll (TaskState.user f) = some (Poll.pending, TaskState.user f)) ∧
    Step.poll TaskState.sleep = none :=
  ⟨fun _ => rfl, rfl, fun _ => rfl, rfl⟩

/-- C9: every wake-notification entry point of the no-op waker vtable
(`waker_clone`, `waker_wake`, `waker_wake_by_ref`) aborts the process
unconditionally; only the release entry `waker_drop` is a no-op. The
continuation poll path never touches the waker (its poll ignores the
context entirely, which is why the embedding of `Step::poll` takes none). -/
theorem c9_waker_aborts :
    waker_clone = none ∧ waker_wake = none ∧ waker_wake_by_ref = none ∧
    waker_drop = some () :=
  ⟨rfl, rfl, rfl, rfl⟩

/-- C10: polling a `Step` handle never modifies the shared state cell in any
non-fatal case — in particular a `Ready` poll of `Entry(frame)` leaves the
cell at `Entry(frame)` — and the state changes only when the continuation
next calls `TaskHandle::step`, which sets it to `User(frame)`. -/
theorem c10_step_poll_preserves_state :
    (∀ st p st2, Step.poll st = some (p, st2) → st2 = st) ∧
    (∀ f, Step.poll (TaskState.entry f) = some (Poll.ready f, TaskState.entry f)) ∧
    (∀ f st, TaskHandle.step f st = TaskState.user f) := by
  refine ⟨?_, fun _ => rfl, fun _ _ => rfl⟩
  intro st p st2 h
  cases st with
  | entry f => simp [Step.poll] at h; exact h.2.symm
  | wake => simp [Step.poll] at h; exact h.2.symm
  | user f => simp [Step.poll] at h; exact h.2.symm
  | sleep => simp [Step.poll] at h

theorem c10_step_poll_preserves_state_witness :
    Step.poll (TaskState.entry (TrapFrame.new 3 4)) =
      some (Poll.ready (TrapFrame.new 3 4), TaskState.entry (TrapFrame.new 3 4)) ∧
    TaskState.entry (TrapFrame.new 3 4) = TaskState.entry (TrapFrame.new 3 4) :=
  ⟨rfl, c10_step_poll_preserves_state.1 (TaskState.entry (TrapFrame.new 3 4)) _ _ rfl⟩

/-- C6: the save phase overwrites the current task's stored frame with the
incoming frame exactly when the current state is `User(_)`; with no current
task, or a current state of `Entry(_)`, `Wake` or `Sleep`, it leaves the
registry completely unchanged. -/
theorem c6_save_phase (frame : TrapFrame) (ts : Tasks) :
    (ts.current = none → save_current_task frame ts = (0, ts)) ∧
    (∀ cid, ts.current = some cid →
      save_current_task frame ts =
        (cid, { ts with map := ts.map.map (saveEntry frame cid) }) ∧
      (∀ e : TaskEntry, e.id = cid → ∀ g, e.state = TaskState.user g →
        saveEntry frame cid e = { e with state := TaskState.user frame }) ∧
      (∀ e : TaskEntry, (∀ g, e.state ≠ TaskState.user g) → saveEntry frame cid e = e) ∧
      (∀ e : TaskEntry, e.id ≠ cid → saveEntry frame cid e = e)) ∧
    (∀ cid, ts.current = some cid →
      (∀ e ∈ ts.map, e.id = cid → ∀ g, e.state ≠ TaskState.user g) →
      save_current_task frame ts = (cid, ts)) := by
  refine ⟨fun h => ?_, fun cid h => ?_, fun cid h hnu => ?_⟩
  · unfold save_current_task; rw [h]
  · refine ⟨by unfold save_current_task; rw [h], ?_, ?_, ?_⟩
    · intro e hid g hst; exact saveEntry_user frame cid e g hid hst
    · intro e hne; exact saveEntry_not_user frame cid e hne
    · intro e hne; exact saveEntry_other frame cid e hne
  · have hmap : ts.map.map (saveEntry frame cid) = ts.map := by
      apply map_eq_self_of_eq_id
      intro e he
      by_cases hid : e.id = cid
      · exact saveEntry_not_user frame cid e (hnu e he hid)
      · exact saveEntry_other frame cid e hid
    have h2 : save_current_task frame ts =
        (cid, { ts with map := ts.map.map (saveEntry frame cid) }) := by
      unfold save_current_task; rw [h]
    have h3 : ({ ts with map := ts.map.map (saveEntry frame cid) } : Tasks) = ts := by
      rw [hmap]
    rw [h2, h3]

theorem c6_save_phase_witness :
    ((⟨[⟨1, TaskState.wake, FutState.awaitingStep⟩], some 1, 2⟩ : Tasks).current = some 1) ∧
    save_current_task (TrapFrame.new 9 9)
        ⟨[⟨1, TaskState.wake, FutState.awaitingStep⟩], some 1, 2⟩ =
      (1, ⟨[⟨1, TaskState.wake, FutState.awaitingStep⟩], some 1, 2⟩) :=
  ⟨rfl,
    (c6_save_phase (TrapFrame.new 9 9)
        ⟨[⟨1, TaskState.wake, FutState.awaitingStep⟩], some 1, 2⟩).2.2 1 rfl
      (by intro e he hid g; simp at he; rw [he]; simp)⟩

/-- C7: a `Tasks::create` call that fails with `MemoryExhausted` leaves the
registry's ordered mapping exactly as it was — registration is
all-or-nothing with respect to the map. -/
theorem c7_create_all_or_nothing (p : AllocPlan) (init : TrapFrame) (ts : Tasks)
    (h : (Tasks.create p init ts).2 = Except.error MemoryExhausted.mk) :
    (Tasks.create p init ts).1.map = ts.map := by
  unfold Tasks.create at h ⊢
  split_ifs at h ⊢
  all_goals rfl

theorem c7_create_all_or_nothing_witness :
    (Tasks.create ⟨true, true, true, true, false⟩ (TrapFrame.new 1 0) bootTasks).2 =
      Except.error MemoryExhausted.mk ∧
    (Tasks.create ⟨true, true, true, true, false⟩ (TrapFrame.new 1 0) bootTasks).1.map =
      bootTasks.map :=
  ⟨rfl, c7_create_all_or_nothing _ _ _ rfl⟩

/-- C8: across any sequence of `Tasks::create` calls starting from the
boot-initialized registry, the ids handed out by successful registrations are
strictly increasing, never 0, and never reused — failed registrations
included (they still consume an id). -/
theorem c8_ids_strictly_increasing (l : List (AllocPlan × TrapFrame)) :
    List.Chain' (· < ·) (runCreates l bootTasks).2 ∧
    (∀ x ∈ (runCreates l bootTasks).2, x ≠ 0) ∧
    List.Pairwise (· ≠ ·) (runCreates l bootTasks).2 := by
  obtain ⟨hch, hge⟩ := runCreates_chain l bootTasks
  refine ⟨hch, fun x hx => ?_, ?_⟩
  · have h1 : (1 : Nat) ≤ x := hge x hx
    omega
  · have hpw : List.Pairwise (· < ·) (runCreates l bootTasks).2 :=
      List.chain'_iff_pairwise.mp hch
    exact hpw.imp fun h => Nat.ne_of_lt h

/-- C2: `dispatch_syscall` with a current task whose state is not `User(_)`
(`Entry(_)`, `Wake` or `Sleep`) is a fatal abort, never a silent no-op; with
state `User(_)` it replaces the state with `Entry(incoming frame)` and
delegates to `switch`. -/
theorem c2_dispatch_syscall (fuel : Nat) (frame : TrapFrame) (ts : Tasks) (cid : Nat)
    (e : TaskEntry) (hc : ts.current = some cid) (he : lookupEntry ts.map cid = some e) :
    ((∀ g, e.state ≠ TaskState.user g) →
      dispatch_syscall fuel frame ts =
        SwitchResult.fatal (setState ts cid (TaskState.entry frame)) []) ∧
    (∀ g, e.state = TaskState.user g →
      dispatch_syscall fuel frame ts =
        «switch» fuel frame (setState ts cid (TaskState.entry frame))) := by
  constructor
  · intro hne
    unfold dispatch_syscall
    simp only [hc, he]
  · intro g hst
    unfold dispatch_syscall
    simp only [hc, he, hst]

theorem c2_dispatch_syscall_witness :
    (⟨[⟨1, TaskState.user (TrapFrame.new 1 2), FutState.awaitingStep⟩],
        some 1, 2⟩ : Tasks).current = some 1 ∧
    lookupEntry [⟨1, TaskState.user (TrapFrame.new 1 2), FutState.awaitingStep⟩] 1 =
      some ⟨1, TaskState.user (TrapFrame.new 1 2), FutState.awaitingStep⟩ ∧
    dispatch_syscall 2 (TrapFrame.new 9 9)
        ⟨[⟨1, TaskState.user (TrapFrame.new 1 2), FutState.awaitingStep⟩], some 1, 2⟩ =
      «switch» 2 (TrapFrame.new 9 9)
        (setState ⟨[⟨1, TaskState.user (TrapFrame.new 1 2), FutState.awaitingStep⟩],
            some 1, 2⟩ 1 (TaskState.entry (TrapFrame.new 9 9))) :=
  ⟨rfl, rfl,
    (c2_dispatch_syscall 2 (TrapFrame.new 9 9)
      ⟨[⟨1, TaskState.user (TrapFrame.new 1 2), FutState.awaitingStep⟩], some 1, 2⟩ 1
      ⟨1, TaskState.user (TrapFrame.new 1 2), FutState.awaitingStep⟩ rfl rfl).2
      (TrapFrame.new 1 2) rfl⟩

/-- C3: whenever the selection step of `switch` picks a task whose state is
`User(f)`, the loop returns at once with the caller's output frame equal to
`f`, the poll log unchanged (no continuation is polled on that return path),
and the selected task really is a registered task in state `User(f)`. -/
theorem c3_direct_resume (fuel : Nat) (ts ts2 : Tasks) (prev : Nat) (log : List Nat)
    (id : Nat) (f : TrapFrame)
    (h : find_next_work_item ts prev = some (id, WorkItem.user f, ts2)) :
    switchLoop (fuel + 1) ts prev log = SwitchResult.ok f ts2 log ∧
    ts2 = { ts with current := some id } ∧
    ∃ e, e ∈ ts.map ∧ e.id = id ∧ e.state = TaskState.user f := by
  obtain ⟨hts2, e, hmem, hid, hns, huser, hker⟩ :=
    scanCandidates_spec _ ts id _ ts2 h
  refine ⟨?_, hts2, e, mem_candidates hmem, hid, huser f rfl⟩
  simp only [switchLoop, h]

theorem c3_direct_resume_witness :
    find_next_work_item
        ⟨[⟨1, TaskState.user (TrapFrame.new 5 6), FutState.awaitingStep⟩], some 1, 2⟩ 1 =
      some (1, WorkItem.user (TrapFrame.new 5 6),
        ⟨[⟨1, TaskState.user (TrapFrame.new 5 6), FutState.awaitingStep⟩], some 1, 2⟩) ∧
    switchLoop 1 ⟨[⟨1, TaskState.user (TrapFrame.new 5 6), FutState.awaitingStep⟩],
        some 1, 2⟩ 1 [] =
      SwitchResult.ok (TrapFrame.new 5 6)
        ⟨[⟨1, TaskState.user (TrapFrame.new 5 6), FutState.awaitingStep⟩], some 1, 2⟩ [] :=
  ⟨rfl, (c3_direct_resume 0
    ⟨[⟨1, TaskState.user (TrapFrame.new 5 6), FutState.awaitingStep⟩], some 1, 2⟩
    ⟨[⟨1, TaskState.user (TrapFrame.new 5 6), FutState.awaitingStep⟩], some 1, 2⟩
    1 [] 1 (TrapFrame.new 5 6) rfl).1⟩

/-- C4: a task all of whose registry entries are `Sleep` is never selected as
current and never polled across a whole `switch` invocation (of any fuel),
and its state is still `Sleep` afterwards; since the conclusion re-establishes
the hypothesis, this extends to any number of `switch` invocations until an
external writer changes the state. -/
theorem c4_sleep_exclusion (fuel : Nat) (frame : TrapFrame) (ts : Tasks) (tid : Nat)
    (hH : ∀ e ∈ ts.map, e.id = tid → e.state = TaskState.sleep) :
    match «switch» fuel frame ts with
    | SwitchResult.ok _ ts2 log2 =>
        (∀ e ∈ ts2.map, e.id = tid → e.state = TaskState.sleep) ∧
        ts2.current ≠ some tid ∧ tid ∉ log2
    | SwitchResult.fatal ts2 log2 =>
        (∀ e ∈ ts2.map, e.id = tid → e.state = TaskState.sleep) ∧ tid ∉ log2
    | SwitchResult.outOfFuel ts2 log2 =>
        (∀ e ∈ ts2.map, e.id = tid → e.state = TaskState.sleep) ∧ tid ∉ log2 := by
  have hsave : ∀ e ∈ (save_current_task frame ts).2.map, e.id = tid →
      e.state = TaskState.sleep := by
    cases hc : ts.current with
    | none =>
      unfold save_current_task
      rw [hc]
      exact hH
    | some cid =>
      unfold save_current_task
      rw [hc]
      intro e he hid
      obtain ⟨a, ha, hae⟩ := List.mem_map.1 he
      by_cases h3 : a.id = tid
      · have hsl : a.state = TaskState.sleep := hH a ha h3
        have hkeep : saveEntry frame cid a = a := by
          apply saveEntry_not_user
          rw [hsl]
          intro g hg
          cases hg
        rw [← hae, hkeep]
        exact hsl
      · exfalso
        apply h3
        rw [← hae, saveEntry_id] at hid
        exact hid
  have hmain := switchLoop_sleep_invariant tid fuel (save_current_task frame ts).2
    (save_current_task frame ts).1 [] hsave (by simp)
  unfold «switch»
  exact hmain

theorem c4_sleep_exclusion_witness :
    (∀ e ∈ ([⟨1, TaskState.sleep, FutState.awaitingStep⟩,
        ⟨2, TaskState.wake, FutState.notStarted (TrapFrame.new 7 8)⟩] : List TaskEntry),
      e.id = 1 → e.state = TaskState.sleep) ∧
    (match «switch» 3 (TrapFrame.new 0 0)
        ⟨[⟨1, TaskState.sleep, FutState.awaitingStep⟩,
          ⟨2, TaskState.wake, FutState.notStarted (TrapFrame.new 7 8)⟩], some 2, 3⟩ with
      | SwitchResult.ok _ ts2 log2 =>
          (∀ e ∈ ts2.map, e.id = 1 → e.state = TaskState.sleep) ∧
          ts2.current ≠ some 1 ∧ 1 ∉ log2
      | SwitchResult.fatal ts2 log2 =>
          (∀ e ∈ ts2.map, e.id = 1 → e.state = TaskState.sleep) ∧ 1 ∉ log2
      | SwitchResult.outOfFuel ts2 log2 =>
          (∀ e ∈ ts2.map, e.id = 1 → e.state = TaskState.sleep) ∧ 1 ∉ log2) :=
  ⟨by decide, c4_sleep_exclusion 3 (TrapFrame.new 0 0) _ 1 (by decide)⟩

/-! ## Round-robin selection order (C1) -/

theorem filter_ge_eq_drop :
    ∀ (m : List TaskEntry) (i : Nat) (h : i < m.length),
      List.Pairwise (fun a b : TaskEntry => a.id < b.id) m →
      m.filter (fun e => (m.get ⟨i, h⟩).id ≤ e.id) = m.drop i := by
  intro m
  induction m with
  | nil => intro i h; simp at h
  | cons a t ih =>
    intro i h hp
    obtain ⟨ha, hpt⟩ := List.pairwise_cons.1 hp
    cases i with
    | zero =>
      have hget : (a :: t).get ⟨0, h⟩ = a := rfl
      rw [hget, List.drop_zero]
      apply List.filter_eq_self.mpr
      intro e he
      simp only [decide_eq_true_eq]
      rcases List.mem_cons.1 he with rfl | he2
      · exact le_refl _
      · exact le_of_lt (ha e he2)
    | succ i =>
      have hlen : i < t.length := Nat.lt_of_succ_lt_succ h
      have hget : (a :: t).get ⟨i + 1, h⟩ = t.get ⟨i, hlen⟩ := rfl
      rw [hget, List.drop_succ_cons]
      rw [List.filter_cons]
      have hlt : a.id < (t.get ⟨i, hlen⟩).id := ha _ (t.get_mem _ _)
      rw [if_neg (by simp only [decide_eq_true_eq]; omega)]
      exact ih i hlen hpt

theorem filter_le_eq_take :
    ∀ (m : List TaskEntry) (i : Nat) (h : i < m.length),
      List.Pairwise (fun a b : TaskEntry => a.id < b.id) m →
      m.filter (fun e => e.id ≤ (m.get ⟨i, h⟩).id) = m.take (i + 1) := by
  intro m
  induction m with
  | nil => intro i h; simp at h
  | cons a t ih =>
    intro i h hp
    obtain ⟨ha, hpt⟩ := List.pairwise_cons.1 hp
    cases i with
    | zero =>
      have hget : (a :: t).get ⟨0, h⟩ = a := rfl
      rw [hget, List.take_succ_cons, List.take_zero]
      rw [List.filter_cons, if_pos (by simp)]
      congr 1
      apply List.filter_eq_nil_iff.mpr
      intro e he
      simp only [decide_eq_true_eq]
      have := ha e he
      omega
    | succ i =>
      have hlen : i < t.length := Nat.lt_of_succ_lt_succ h
      have hget : (a :: t).get ⟨i + 1, h⟩ = t.get ⟨i, hlen⟩ := rfl
      rw [hget, List.take_succ_cons]
      rw [List.filter_cons]
      have hlt : a.id < (t.get ⟨i, hlen⟩).id := ha _ (t.get_mem _ _)
      rw [if_pos (by simp only [decide_eq_true_eq]; omega)]
      congr 1
      exact ih i hlen hpt

theorem candidates_rotation (m : List TaskEntry) (i : Nat) (h : i < m.length)
    (hp : List.Pairwise (fun a b : TaskEntry => a.id < b.id) m) :
    candidates m ((m.get ⟨i, h⟩).id) = m.drop (i + 1) ++ m.take (i + 1) := by
  unfold candidates
  rw [filter_ge_eq_drop m i h hp, filter_le_eq_take m i h hp, List.drop_drop]

theorem rotation_head (m : List TaskEntry) (i : Nat) (h : i < m.length) :
    (m.drop (i + 1) ++ m.take (i + 1)).head? = m[(i + 1) % m.length]? := by
  rcases Nat.lt_or_ge (i + 1) m.length with hlt | hge
  · rw [Nat.mod_eq_of_lt hlt, List.head?_append]
    rw [List.head?_drop]
    rw [List.getElem?_eq_getElem hlt]
    rfl
  · have hEq : i + 1 = m.length := by omega
    rw [hEq, List.drop_length, List.nil_append, List.take_length, Nat.mod_self]
    exact List.head?_eq_getElem? m

theorem scanCandidates_cons_head (ts : Tasks) (c : TaskEntry) (rest : List TaskEntry)
    (h : c.state ≠ TaskState.sleep) :
    (scanCandidates ts (c :: rest)).map (fun r => r.1) = some c.id := by
  unfold scanCandidates
  cases hst : c.state with
  | sleep => exact absurd hst h
  | entry g => rfl
  | wake => rfl
  | user f => rfl

theorem selectedId_cyclic (ts : Tasks) (i : Nat) (h : i < ts.map.length)
    (hp : List.Pairwise (fun a b : TaskEntry => a.id < b.id) ts.map)
    (hns : ∀ e ∈ ts.map, e.state ≠ TaskState.sleep) :
    selectedId ts ((ts.map.get ⟨i, h⟩).id) =
      (ts.map[(i + 1) % ts.map.length]?).map TaskEntry.id := by
  unfold selectedId find_next_work_item
  rw [candidates_rotation ts.map i h hp]
  have hh := rotation_head ts.map i h
  cases hrot : ts.map.drop (i + 1) ++ ts.map.take (i + 1) with
  | nil =>
    rw [hrot] at hh
    simp at hh
    have hmod : (i + 1) % ts.map.length < ts.map.length := Nat.mod_lt _ (by omega)
    omega
  | cons c tail =>
    rw [hrot] at hh
    have hcm : c ∈ ts.map := by
      have hcc : c ∈ ts.map.drop (i + 1) ++ ts.map.take (i + 1) := by
        rw [hrot]; exact List.mem_cons_self _ _
      rcases List.mem_append.1 hcc with hm | hm
      · exact List.mem_of_mem_drop hm
      · exact List.mem_of_mem_take hm
    rw [scanCandidates_cons_head ts c tail (hns c hcm), ← hh]
    rfl

theorem pairwise_of_ids_chain {m : List TaskEntry} {l : List Nat}
    (hml : m.map TaskEntry.id = l) (hch : List.Chain' (· < ·) l) :
    List.Pairwise (fun a b : TaskEntry => a.id < b.id) m := by
  have hpl : List.Pairwise (· < ·) l := List.chain'_iff_pairwise.mp hch
  rw [← hml] at hpl
  exact List.pairwise_map.mp hpl

theorem selection_step {ts : Tasks} {l : List Nat} {N : Nat}
    (hN : N = l.length) (hch : List.Chain' (· < ·) l)
    (hml : ts.map.map TaskEntry.id = l)
    (hns : ∀ e ∈ ts.map, e.state ≠ TaskState.sleep)
    {x q : Nat} (hx : x < N) (hlx : l[x]? = some q) :
    selectedId ts q = l[(x + 1) % N]? := by
  have hlen : ts.map.length = N := by
    have := congrArg List.length hml
    simpa [hN] using this
  have hxm : x < ts.map.length := by omega
  have hser : l[x]? = (ts.map[x]?).map TaskEntry.id := by
    rw [← hml, List.getElem?_map]
  rw [hser, List.getElem?_eq_getElem hxm] at hlx
  have hq : (ts.map.get ⟨x, hxm⟩).id = q := by
    simpa using hlx
  have hcyc := selectedId_cyclic ts x hxm (pairwise_of_ids_chain hml hch) hns
  rw [hq] at hcyc
  rw [hcyc, hlen]
  rw [← List.getElem?_map, hml]

/-- C1 counterexample at the sentinel: with `previous_id = 0` (no current
task) and a map holding exactly one runnable (`Wake`) task of id 1, the
candidate iterator `range(0..).skip(1).chain(range(..=0))` is empty — the
task with the smallest id strictly greater than 0 is never examined — and
`find_next_work_item` hits the "no task ready" panic instead of visiting
id 1. -/
theorem c1_sentinel_counterexample :
    candidates [⟨1, TaskState.wake, FutState.awaitingStep⟩] 0 = [] ∧
    find_next_work_item ⟨[⟨1, TaskState.wake, FutState.awaitingStep⟩], none, 2⟩ 0 = none ∧
    (⟨1, TaskState.wake, FutState.awaitingStep⟩ : TaskEntry).state ≠ TaskState.sleep ∧
    save_current_task (TrapFrame.new 0 0)
        ⟨[⟨1, TaskState.wake, FutState.awaitingStep⟩], none, 2⟩ =
      (0, ⟨[⟨1, TaskState.wake, FutState.awaitingStep⟩], none, 2⟩) := by
  refine ⟨rfl, rfl, by decide, rfl⟩

/-- C1 (amended): when `previous_id` is the id of a registered task — say the
one at index `i` of the sorted id list `l` (in the delivered program the save
phase always yields such an id, since `start` sets a current task before the
first `switch`) — the candidates are examined in the order: ids strictly
greater than `previous_id` ascending, then wrapping to ids less than or equal
to `previous_id` ascending.  Consequently, as long as no registered task is
ever `Sleep`, the successive selections (`p (j+1)` being the id selected from
previous id `p j`, however the states evolve between selections) walk the id
list in increasing cyclic order: the j-th selection is the id at index
`(i+1+j) % N`, and the first N selections are pairwise distinct and cover
every registered id before any repeats. -/
theorem c1_round_robin (tss : Nat → Tasks) (p : Nat → Nat) (l : List Nat) (i N : Nat)
    (hN : N = l.length)
    (hch : List.Chain' (· < ·) l)
    (hids : ∀ j, j ≤ N → (tss j).map.map TaskEntry.id = l)
    (hsleep : ∀ j, j < N → ∀ e ∈ (tss j).map, e.state ≠ TaskState.sleep)
    (hi : i < N)
    (hp0 : l[i]? = some (p 0))
    (hsel : ∀ j, j < N → selectedId (tss j) (p j) = some (p (j + 1))) :
    (candidates (tss 0).map (p 0)).map TaskEntry.id = l.drop (i + 1) ++ l.take (i + 1) ∧
    (∀ j, j < N → l[(i + 1 + j) % N]? = some (p (j + 1))) ∧
    (∀ j k, j < k → k < N → p (j + 1) ≠ p (k + 1)) ∧
    (∀ x ∈ l, ∃ j, j < N ∧ p (j + 1) = x) := by
  have hN0 : 0 < N := by omega
  have inv : ∀ j, j ≤ N → l[(i + j) % N]? = some (p j) := by
    intro j
    induction j with
    | zero =>
      intro _
      rw [Nat.add_zero, Nat.mod_eq_of_lt (by omega)]
      exact hp0
    | succ j ihj =>
      intro hjN
      have hj : j < N := by omega
      have hprev := ihj (le_of_lt hj)
      have hx : (i + j) % N < N := Nat.mod_lt _ (by omega)
      have hstep := selection_step hN hch (hids j (le_of_lt hj)) (hsleep j hj) hx hprev
      rw [hsel j hj] at hstep
      rw [Nat.mod_add_mod] at hstep
      exact hstep.symm
  have hB : ∀ j, j < N → l[(i + 1 + j) % N]? = some (p (j + 1)) := by
    intro j hj
    have hinv := inv (j + 1) (by omega)
    have harith : i + (j + 1) = i + 1 + j := by omega
    rw [harith] at hinv
    exact hinv
  have hpl : List.Pairwise (· < ·) l := List.chain'_iff_pairwise.mp hch
  have hnd : l.Nodup := hpl.imp fun h => Nat.ne_of_lt h
  have hmodinj : ∀ a b, a < N → b < N → (i + 1 + a) % N = (i + 1 + b) % N → a = b := by
    intro a b ha hb hEq
    have hmq : Nat.ModEq N (i + 1 + a) (i + 1 + b) := hEq
    have hab : Nat.ModEq N a b := Nat.ModEq.add_left_cancel' (i + 1) hmq
    have hab2 : a % N = b % N := hab
    rw [Nat.mod_eq_of_lt ha, Nat.mod_eq_of_lt hb] at hab2
    exact hab2
  refine ⟨?_, hB, ?_, ?_⟩
  · have hml0 := hids 0 (by omega)
    have hlen0 : (tss 0).map.length = N := by
      have := congrArg List.length hml0
      simpa [hN] using this
    have hxm : i < (tss 0).map.length := by omega
    have hser : l[i]? = ((tss 0).map[i]?).map TaskEntry.id := by
      rw [← hml0, List.getElem?_map]
    have hp0m := hp0
    rw [hser, List.getElem?_eq_getElem hxm] at hp0m
    have hpi : ((tss 0).map.get ⟨i, hxm⟩).id = p 0 := by
      simpa using hp0m
    rw [← hpi, candidates_rotation (tss 0).map i hxm (pairwise_of_ids_chain hml0 hch),
      List.map_append, List.map_drop, List.map_take, hml0]
  · intro j k hjk hk hEqp
    have hBj := hB j (by omega)
    have hBk := hB k hk
    rw [hEqp] at hBj
    have hxy : l[(i + 1 + j) % N]? = l[(i + 1 + k) % N]? := by rw [hBj, hBk]
    have hlt1 : (i + 1 + j) % N < l.length := by
      rw [← hN]; exact Nat.mod_lt _ (by omega)
    have hidxeq := List.getElem?_inj hlt1 hnd hxy
    have := hmodinj j k (by omega) hk hidxeq
    omega
  · intro x hx
    obtain ⟨⟨idx, hidx⟩, hget⟩ := List.mem_iff_get.mp hx
    have hfinj : Function.Injective
        (fun j : Fin N => (⟨(i + 1 + j.val) % N, Nat.mod_lt _ hN0⟩ : Fin N)) := by
      intro a b hab
      have hv := congrArg Fin.val hab
      exact Fin.ext (hmodinj a.val b.val a.isLt b.isLt hv)
    have hfsurj := Finite.injective_iff_surjective.mp hfinj
    obtain ⟨j, hj⟩ := hfsurj ⟨idx, by omega⟩
    refine ⟨j.val, j.isLt, ?_⟩
    have hBj := hB j.val j.isLt
    have hfval : (i + 1 + j.val) % N = idx := congrArg Fin.val hj
    rw [hfval] at hBj
    rw [List.getElem?_eq_getElem (by omega : idx < l.length)] at hBj
    have hBj2 : l.get ⟨idx, hidx⟩ = p (j.val + 1) := by
      simpa using hBj
    rw [← hBj2, hget]

theorem c1_round_robin_witness :
    (∀ j, j < 1 →
      selectedId ⟨[⟨1, TaskState.wake, FutState.awaitingStep⟩], some 1, 2⟩ 1 = some 1) ∧
    ((candidates [⟨1, TaskState.wake, FutState.awaitingStep⟩] 1).map TaskEntry.id =
        ([1] : List Nat).drop 1 ++ ([1] : List Nat).take 1 ∧
      (∀ j, j < 1 → ([1] : List Nat)[(0 + 1 + j) % 1]? = some 1) ∧
      (∀ j k, j < k → k < 1 → (1 : Nat) ≠ 1) ∧
      (∀ x ∈ ([1] : List Nat), ∃ j, j < 1 ∧ (1 : Nat) = x)) :=
  ⟨fun _ _ => rfl,
    c1_round_robin
      (fun _ => ⟨[⟨1, TaskState.wake, FutState.awaitingStep⟩], some 1, 2⟩)
      (fun _ => 1) [1] 0 1 rfl (by simp) (fun _ _ => rfl) (by decide)
      (by decide) rfl (by decide)⟩

end CrabOS
